import Mathlib

/-!
Verification of PyCompressCloud (src/PyCompressCloud.py).

The development shallowly embeds the compression/decompression core of the
program: the codec registry (`get_compression_function`,
`get_decompression_function`), the single-file transcoders (`compress_file`,
`decompress_file`), the directory walkers (`compress_directory`,
`decompress_directory`), the CLI dispatch of `main`, and the argparse
`choices` list built from `CompressionAlgorithm.__dict__.values()`.

The filesystem is modelled as an association list from paths (lists of path
components) to byte contents.  File operations are state transformers
returning the new filesystem, the emitted log records, and an optional error
(a raised Python exception, named through the error taxonomy of the spec).

The four standard-library codecs (gzip, zlib, bz2, lzma) live outside the
repository; they are modelled from the spec (see `modelEncode`/`modelDecode`).
-/

/-- Byte sequences, as Python `bytes`: a list of byte values. -/
abbrev Bytes := List Nat

/-- Filesystem paths, as lists of path components (directory names, then the
filename as the final component). -/
abbrev FsPath := List String

/-- Error taxonomy of the spec (section 7).  `unsupportedAlgorithm` models the
`ValueError` raised by the codec registry; `sourceNotFound` the missing-input
error; `codecFailure` a decode error raised by a decompression routine. -/
inductive Err where
  | unsupportedAlgorithm
  | sourceNotFound
  | codecFailure
deriving DecidableEq, Repr

/-- Transcoding direction. -/
inductive Mode where
  | compress
  | decompress
deriving DecidableEq, Repr

/-- Structured log records, mirroring the `logger.info` / `logger.error`
calls of the source: one per transcoded file, one per finished directory
walk, and one error record for an invalid input path in `main`. -/
inductive LogRec where
  | fileLog (m : Mode) (src tgt : FsPath) (algorithm : String)
  | dirLog (m : Mode) (src tgt : FsPath) (algorithm : String)
  | invalidInput (p : FsPath)
deriving DecidableEq, Repr

/-- The filesystem: an association list from paths to file contents. -/
abbrev FS := List (FsPath × Bytes)

/-- Result of running an operation: the filesystem afterwards, the log
records emitted (in order), and the exception that escaped, if any. -/
structure Res where
  fs : FS
  logs : List LogRec
  err : Option Err
deriving DecidableEq, Repr

/-- Read the contents of the file at path `p`, as Python `open(p, "rb")`
followed by `read()`; `none` when no such file exists. -/
def FS.read : FS → FsPath → Option Bytes
  | [], _ => none
  | e :: rest, p => if e.1 = p then some e.2 else FS.read rest p

/-- Write `d` to the file at path `p`, as Python `open(p, "wb")` followed by
`write(d)`: any previous file at `p` is replaced. -/
def FS.write (fs : FS) (p : FsPath) (d : Bytes) : FS :=
  (p, d) :: fs.filter (fun e => !decide (e.1 = p))

/-- Whether a regular file exists at `p` (Python `os.path.isfile`). -/
def FS.isFile (fs : FS) (p : FsPath) : Bool :=
  (fs.read p).isSome

/-- Whether `root` is an initial segment of `p` (component-wise). -/
def pathStarts : FsPath → FsPath → Bool
  | [], _ => true
  | _ :: _, [] => false
  | a :: as, b :: bs => a == b && pathStarts as bs

/-- Whether `p` lies strictly below the directory `root`. -/
def pathUnder (root p : FsPath) : Bool :=
  pathStarts root p && decide (root.length < p.length)

/-- Whether a directory exists at `p` (Python `os.path.isdir`): some regular
file lives strictly below `p`. -/
def FS.isDir (fs : FS) (p : FsPath) : Bool :=
  fs.any (fun e => pathUnder p e.1)

/-- The constants of the Python class `CompressionAlgorithm`
(src lines 31-35). -/
def CompressionAlgorithm.GZIP : String := "gzip"

def CompressionAlgorithm.ZLIB : String := "zlib"

def CompressionAlgorithm.BZ2 : String := "bz2"

def CompressionAlgorithm.LZMA : String := "lzma"

/-- The four supported algorithm identifiers. -/
def knownAlgorithms : List String :=
  [CompressionAlgorithm.GZIP, CompressionAlgorithm.ZLIB,
   CompressionAlgorithm.BZ2, CompressionAlgorithm.LZMA]

/-- Modelled from the spec: the standard-library compression routines
(`gzip.compress`, `zlib.compress`, `bz2.compress`, `lzma.compress`) are
outside the repository.  Per the spec (section 4.1) each algorithm is a
deterministic, injective encoder whose output carries an algorithm-specific
header; the model prepends a per-algorithm tag byte to the payload. -/
def modelEncode (tag : Nat) (x : Bytes) : Bytes :=
  tag :: x

/-- Modelled from the spec: the standard-library decompression routines
(`gzip.decompress`, `zlib.decompress`, `bz2.decompress`, `lzma.decompress`)
live outside the repository.  Per the spec (sections 4.1 and 7) decoding
inverts encoding and fails on corrupted or mismatched-algorithm input; the
model checks and strips the per-algorithm tag byte. -/
def modelDecode (tag : Nat) (y : Bytes) : Except Unit Bytes :=
  match y with
  | [] => Except.error ()
  | t :: rest => if t = tag then Except.ok rest else Except.error ()

/-- Codec registry, compression side (src lines 38-48): dispatch by string
equality against the `CompressionAlgorithm` constants; an unknown identifier
raises (`ValueError`, named `unsupportedAlgorithm` in the spec taxonomy). -/
def get_compression_function (algorithm : String) : Except Err (Bytes → Bytes) :=
  if algorithm = CompressionAlgorithm.GZIP then Except.ok (modelEncode 0)
  else if algorithm = CompressionAlgorithm.ZLIB then Except.ok (modelEncode 1)
  else if algorithm = CompressionAlgorithm.BZ2 then Except.ok (modelEncode 2)
  else if algorithm = CompressionAlgorithm.LZMA then Except.ok (modelEncode 3)
  else Except.error Err.unsupportedAlgorithm

/-- Codec registry, decompression side (src lines 51-61). -/
def get_decompression_function (algorithm : String) :
    Except Err (Bytes → Except Unit Bytes) :=
  if algorithm = CompressionAlgorithm.GZIP then Except.ok (modelDecode 0)
  else if algorithm = CompressionAlgorithm.ZLIB then Except.ok (modelDecode 1)
  else if algorithm = CompressionAlgorithm.BZ2 then Except.ok (modelDecode 2)
  else if algorithm = CompressionAlgorithm.LZMA then Except.ok (modelDecode 3)
  else Except.error Err.unsupportedAlgorithm

/-- Model of `compress_file` (src lines 64-74): look the codec up first, then open and
read the source, compress, write the destination, and log.  A registry
failure happens before any file is touched; a missing source aborts before
the destination is opened. -/
def compress_file (fs : FS) (input_path output_path : FsPath) (algorithm : String) : Res :=
  match get_compression_function algorithm with
  | Except.error e => { fs := fs, logs := [], err := some e }
  | Except.ok comp =>
    match fs.read input_path with
    | none => { fs := fs, logs := [], err := some Err.sourceNotFound }
    | some data =>
      { fs := fs.write output_path (comp data),
        logs := [LogRec.fileLog Mode.compress input_path output_path algorithm],
        err := none }

/-- Model of `decompress_file` (src lines 77-87): look the codec up, read the source,
decode (which may raise `CodecFailure`), and only then open the destination
for writing.  On a decode failure the destination is never opened. -/
def decompress_file (fs : FS) (input_path output_path : FsPath) (algorithm : String) : Res :=
  match get_decompression_function algorithm with
  | Except.error e => { fs := fs, logs := [], err := some e }
  | Except.ok decomp =>
    match fs.read input_path with
    | none => { fs := fs, logs := [], err := some Err.sourceNotFound }
    | some compressed_data =>
      match decomp compressed_data with
      | Except.error _ => { fs := fs, logs := [], err := some Err.codecFailure }
      | Except.ok data =>
        { fs := fs.write output_path data,
          logs := [LogRec.fileLog Mode.decompress input_path output_path algorithm],
          err := none }

/-- Python `str.endswith(suf)`, on the character sequence of the string. -/
def strEndsWith (s suf : String) : Bool :=
  decide (suf.data.length ≤ s.data.length) &&
  decide (s.data.drop (s.data.length - suf.data.length) = suf.data)

/-- Python slicing `s[:-n]` for `0 < n <= len(s)`: all but the last `n`
characters. -/
def strDropRight (s : String) (n : Nat) : String :=
  String.mk (s.data.take (s.data.length - n))

/-- The fixed marker appended to compressed filenames. -/
def markerSuffix : String := ".compressed"

/-- Append the marker to the final component of a relative path, as
`f"{file}.compressed"` at src line 98. -/
def suffixLast : FsPath → FsPath
  | [] => []
  | [n] => [n ++ markerSuffix]
  | a :: b :: rest => a :: suffixLast (b :: rest)

/-- The final component (the filename) of a relative path. -/
def lastName : FsPath → String
  | [] => ""
  | [n] => n
  | _ :: b :: rest => lastName (b :: rest)

/-- Strip the marker from the final component of a relative path, as
`file[:-len(".compressed")]` at src line 115. -/
def stripLast : FsPath → FsPath
  | [] => []
  | [n] => [strDropRight n markerSuffix.length]
  | a :: b :: rest => a :: stripLast (b :: rest)

/-- The regular files the `os.walk` traversal visits below `root`, in
filesystem order. -/
def filesUnder (fs : FS) (root : FsPath) : List (FsPath × Bytes) :=
  fs.filter (fun e => pathUnder root e.1)

/-- Run one per-file step for each (source, target) job in order.  An
exception from a step propagates immediately: the remaining jobs are not
run, matching the uncaught-exception semantics of the Python loops. -/
def walkJobs (step : FS → FsPath × FsPath → Res) : FS → List (FsPath × FsPath) → Res
  | fs, [] => { fs := fs, logs := [], err := none }
  | fs, j :: rest =>
    let r := step fs j
    match r.err with
    | some _ => r
    | none =>
      let r2 := walkJobs step r.fs rest
      { fs := r2.fs, logs := r.logs ++ r2.logs, err := r2.err }

/-- The (source, target) pairs of the compress walk (src lines 94-98): every
file below the input root, its target at the same relative path below the
output root with the marker appended to the filename. -/
def compressJobs (fs : FS) (input_path output_path : FsPath) : List (FsPath × FsPath) :=
  (filesUnder fs input_path).map
    (fun e => (e.1, output_path ++ suffixLast (e.1.drop input_path.length)))

/-- Model of `compress_directory` (src lines 90-103): walk the tree, compress each
file, then emit the per-tree summary log.  `os.makedirs` is implicit: the
filesystem model creates parents on write. -/
def compress_directory (fs : FS) (input_path output_path : FsPath) (algorithm : String) : Res :=
  let r := walkJobs (fun s j => compress_file s j.1 j.2 algorithm) fs
    (compressJobs fs input_path output_path)
  match r.err with
  | some _ => r
  | none =>
    { fs := r.fs,
      logs := r.logs ++ [LogRec.dirLog Mode.compress input_path output_path algorithm],
      err := none }

/-- The (source, target) pairs of the decompress walk (src lines 110-115):
only files whose name ends with the marker are kept; the target strips
exactly the marker from the filename. -/
def decompressJobs (fs : FS) (input_path output_path : FsPath) : List (FsPath × FsPath) :=
  (filesUnder fs input_path).filterMap
    (fun e =>
      if strEndsWith (lastName (e.1.drop input_path.length)) markerSuffix then
        some (e.1, output_path ++ stripLast (e.1.drop input_path.length))
      else none)

/-- Model of `decompress_directory` (src lines 106-120): walk the tree, decompress
each marker-suffixed file, skip the rest silently, then emit the per-tree
summary log. -/
def decompress_directory (fs : FS) (input_path output_path : FsPath) (algorithm : String) : Res :=
  let r := walkJobs (fun s j => decompress_file s j.1 j.2 algorithm) fs
    (decompressJobs fs input_path output_path)
  match r.err with
  | some _ => r
  | none =>
    { fs := r.fs,
      logs := r.logs ++ [LogRec.dirLog Mode.decompress input_path output_path algorithm],
      err := none }

/-- The `compress` / `decompress` dispatch of `main` (src lines 199-213): a
file input goes to the file transcoder, a directory input to the tree
walker, anything else is reported with `logger.error` and no operation runs
(the spec taxonomy names this report `SourceNotFound`). -/
def run_transcode (fs : FS) (m : Mode) (input output : FsPath) (algorithm : String) : Res :=
  if fs.isFile input then
    match m with
    | Mode.compress => compress_file fs input output algorithm
    | Mode.decompress => decompress_file fs input output algorithm
  else if fs.isDir input then
    match m with
    | Mode.compress => compress_directory fs input output algorithm
    | Mode.decompress => decompress_directory fs input output algorithm
  else
    { fs := fs, logs := [LogRec.invalidInput input], err := some Err.sourceNotFound }

/-- Python values that can appear in a class namespace, as far as the
argparse `choices` check needs: strings compare equal to the parsed
argument by value; `None` and descriptor objects never equal any string. -/
inductive PyVal where
  | str (s : String)
  | pyNone
  | descriptor (n : String)
deriving DecidableEq, Repr

/-- Model of `list(CompressionAlgorithm.__dict__.values())` (src lines 155, 162): the
class namespace of the plain class at src lines 31-35 holds, besides the
four algorithm constants, the `__module__` value (the string `__main__` when
the file runs as a script), the `__qualname__` value (the string
`CompressionAlgorithm`), the `__dict__` and `__weakref__` descriptors, and
the `__doc__` value `None`.  Exact extras vary slightly across CPython
versions; the entries modelled here are present in all of them. -/
def compressionAlgorithmDictValues : List PyVal :=
  [PyVal.str "__main__", PyVal.str "CompressionAlgorithm",
   PyVal.str CompressionAlgorithm.GZIP, PyVal.str CompressionAlgorithm.ZLIB,
   PyVal.str CompressionAlgorithm.BZ2, PyVal.str CompressionAlgorithm.LZMA,
   PyVal.descriptor "__dict__", PyVal.descriptor "__weakref__", PyVal.pyNone]

/-- argparse acceptance of a parsed `--algorithm` value: the string is
accepted iff it equals one of the configured choices (`value in choices`). -/
def algorithmChoiceAccepts (s : String) : Bool :=
  compressionAlgorithmDictValues.any (fun v => decide (v = PyVal.str s))

/-! Helper lemmas about the filesystem model. -/

/-- The keys of the filesystem are pairwise distinct: each path holds at
most one file. -/
def FS.keysNodup (fs : FS) : Prop :=
  (fs.map Prod.fst).Nodup

instance (fs : FS) : Decidable (FS.keysNodup fs) :=
  List.nodupDecidable _

theorem FS.read_filter_ne (fs : FS) (p q : FsPath) (hq : q ≠ p) :
    FS.read (fs.filter (fun e => !decide (e.1 = p))) q = fs.read q := by
  induction fs with
  | nil => rfl
  | cons e rest ih =>
    by_cases he : e.1 = p
    · have hpq : ¬ p = q := fun h => hq h.symm
      simp [List.filter_cons, he, FS.read, hpq, ih]
    · simp [List.filter_cons, he, FS.read, ih]

theorem FS.read_write (fs : FS) (p : FsPath) (d : Bytes) (q : FsPath) :
    (fs.write p d).read q = if q = p then some d else fs.read q := by
  by_cases h : q = p
  · subst h
    simp [FS.write, FS.read]
  · have hne : ¬ p = q := fun hc => h hc.symm
    simp [FS.write, FS.read, hne, FS.read_filter_ne fs p q h, h]

theorem FS.keysNodup_write (fs : FS) (p : FsPath) (d : Bytes)
    (h : fs.keysNodup) : (fs.write p d).keysNodup := by
  unfold FS.keysNodup FS.write
  simp only [List.map_cons, List.nodup_cons]
  constructor
  · intro hmem
    obtain ⟨e, he, hfst⟩ := List.mem_map.mp hmem
    have := (List.mem_filter.mp he).2
    simp [hfst] at this
  · exact h.sublist ((List.filter_sublist fs).map Prod.fst)

theorem FS.read_eq_some_of_mem (fs : FS) (p : FsPath) (d : Bytes)
    (hk : fs.keysNodup) (hm : (p, d) ∈ fs) : fs.read p = some d := by
  induction fs with
  | nil => cases hm
  | cons e rest ih =>
    have hk2 : (rest.map Prod.fst).Nodup := (List.nodup_cons.mp hk).2
    have hk1 : e.1 ∉ rest.map Prod.fst := (List.nodup_cons.mp hk).1
    rcases List.mem_cons.mp hm with he | hr
    · rw [← he]
      simp [FS.read]
    · have hne : ¬ e.1 = p := by
        intro hc
        exact hk1 (List.mem_map.mpr ⟨(p, d), hr, hc.symm⟩)
      simp [FS.read, hne, ih hk2 hr]

theorem FS.mem_of_read_eq_some (fs : FS) (p : FsPath) (d : Bytes)
    (h : fs.read p = some d) : (p, d) ∈ fs := by
  induction fs with
  | nil => cases h
  | cons e rest ih =>
    by_cases he : e.1 = p
    · simp [FS.read, he] at h
      subst he
      rw [← h]
      exact List.mem_cons_self _ _
    · simp [FS.read, he] at h
      exact List.mem_cons_of_mem _ (ih h)

theorem FS.read_eq_none_of_no_key (fs : FS) (p : FsPath)
    (h : ∀ e ∈ fs, ¬ e.1 = p) : fs.read p = none := by
  induction fs with
  | nil => rfl
  | cons e rest ih =>
    simp [FS.read, h e (List.mem_cons_self _ _)]
    exact ih (fun x hx => h x (List.mem_cons_of_mem _ hx))

theorem FS.countP_key_eq_one (fs : FS) (p : FsPath) (d : Bytes)
    (hk : fs.keysNodup) (hr : fs.read p = some d) :
    fs.countP (fun e => decide (e.1 = p)) = 1 := by
  induction fs with
  | nil => cases hr
  | cons e rest ih =>
    have hk2 : (rest.map Prod.fst).Nodup := (List.nodup_cons.mp hk).2
    have hk1 : e.1 ∉ rest.map Prod.fst := (List.nodup_cons.mp hk).1
    by_cases he : e.1 = p
    · rw [List.countP_cons_of_pos _ _ (by simp [he])]
      have hzero : rest.countP (fun x => decide (x.1 = p)) = 0 := by
        apply List.countP_eq_zero.mpr
        intro x hx
        simp only [decide_eq_true_eq]
        intro hc
        exact hk1 (List.mem_map.mpr ⟨x, hx, by rw [hc, he]⟩)
      rw [hzero]
    · rw [List.countP_cons_of_neg _ _ (by simp [he])]
      simp [FS.read, he] at hr
      exact ih hk2 hr

/-! Helper lemmas about path component lists and filename strings. -/

theorem pathStarts_append_self (r q : FsPath) : pathStarts r (r ++ q) = true := by
  induction r with
  | nil => rfl
  | cons a as ih => simp [pathStarts, ih]

theorem eq_append_drop_of_pathStarts (r : FsPath) :
    ∀ p : FsPath, pathStarts r p = true → p = r ++ p.drop r.length := by
  induction r with
  | nil => intro p _; rfl
  | cons a as ih =>
    intro p h
    cases p with
    | nil => cases h
    | cons b bs =>
      simp only [pathStarts, Bool.and_eq_true, beq_iff_eq] at h
      have htail := ih bs h.2
      simp only [List.length_cons, List.drop_succ_cons, List.cons_append]
      rw [h.1, ← htail]

theorem length_le_of_pathStarts (r : FsPath) :
    ∀ p : FsPath, pathStarts r p = true → r.length ≤ p.length := by
  induction r with
  | nil => intro p _; exact Nat.zero_le _
  | cons a as ih =>
    intro p h
    cases p with
    | nil => cases h
    | cons b bs =>
      simp only [pathStarts, Bool.and_eq_true] at h
      simpa using ih bs h.2

theorem pathUnder_append_self (r q : FsPath) (h : q ≠ []) :
    pathUnder r (r ++ q) = true := by
  simp [pathUnder, pathStarts_append_self]
  exact List.length_pos.mpr h

theorem pathUnder_spec (r p : FsPath) (h : pathUnder r p = true) :
    pathStarts r p = true ∧ r.length < p.length := by
  simpa [pathUnder] using h

theorem drop_ne_nil_of_pathUnder (r p : FsPath) (h : pathUnder r p = true) :
    p.drop r.length ≠ [] := by
  obtain ⟨_, hlen⟩ := pathUnder_spec r p h
  intro hc
  have := List.length_drop r.length p
  rw [hc] at this
  simp at this
  omega

theorem ne_of_pathUnder_true_false (root p q : FsPath)
    (hp : pathUnder root p = true) (hq : pathUnder root q = false) : p ≠ q := by
  intro h
  rw [h, hq] at hp
  cases hp

theorem strAppendCancelRight (a b c : String) (h : a ++ c = b ++ c) : a = b := by
  cases a; cases b
  have h2 := congrArg String.data h
  simp at h2
  exact congrArg String.mk h2

theorem suffixLast_length (l : FsPath) : (suffixLast l).length = l.length := by
  induction l with
  | nil => rfl
  | cons a t ih =>
    cases t with
    | nil => rfl
    | cons b r => simpa [suffixLast] using ih

theorem suffixLast_inj (a : FsPath) :
    ∀ b : FsPath, suffixLast a = suffixLast b → a = b := by
  induction a with
  | nil =>
    intro b h
    cases b with
    | nil => rfl
    | cons c d =>
      have := congrArg List.length h
      rw [suffixLast_length, suffixLast_length] at this
      cases this
  | cons x t ih =>
    intro b h
    cases b with
    | nil =>
      have := congrArg List.length h
      rw [suffixLast_length, suffixLast_length] at this
      cases this
    | cons y u =>
      cases t with
      | nil =>
        cases u with
        | nil =>
          simp only [suffixLast, List.cons.injEq] at h
          rw [strAppendCancelRight x y markerSuffix h.1]
        | cons z w =>
          have := congrArg List.length h
          rw [suffixLast_length, suffixLast_length] at this
          simp at this
      | cons p q =>
        cases u with
        | nil =>
          have := congrArg List.length h
          rw [suffixLast_length, suffixLast_length] at this
          simp at this
        | cons z w =>
          simp only [suffixLast, List.cons.injEq] at h
          have := ih (z :: w) h.2
          rw [h.1, this]

theorem stringDataInj {a b : String} (h : a.data = b.data) : a = b := by
  cases a; cases b; exact congrArg String.mk h

theorem strRecompose (s : String) (h : strEndsWith s markerSuffix = true) :
    strDropRight s markerSuffix.length ++ markerSuffix = s := by
  simp only [strEndsWith, Bool.and_eq_true, decide_eq_true_eq] at h
  apply stringDataInj
  have h1 : (strDropRight s markerSuffix.length).data
      = s.data.take (s.data.length - markerSuffix.length) := rfl
  have h2 : markerSuffix.length = markerSuffix.data.length := rfl
  have h3 : s.data.take (s.data.length - markerSuffix.data.length)
        ++ s.data.drop (s.data.length - markerSuffix.data.length) = s.data :=
    List.take_append_drop _ _
  rw [h.2] at h3
  rw [String.data_append, h1, h2]
  exact h3

theorem strDropRight_marker_inj (a b : String)
    (ha : strEndsWith a markerSuffix = true) (hb : strEndsWith b markerSuffix = true)
    (h : strDropRight a markerSuffix.length = strDropRight b markerSuffix.length) :
    a = b := by
  rw [← strRecompose a ha, ← strRecompose b hb, h]

theorem stripLast_length (l : FsPath) : (stripLast l).length = l.length := by
  induction l with
  | nil => rfl
  | cons a t ih =>
    cases t with
    | nil => rfl
    | cons b r => simpa [stripLast] using ih

theorem lastName_cons_cons (a b : String) (r : List String) :
    lastName (a :: b :: r) = lastName (b :: r) := rfl

theorem stripLast_marker_inj (a : FsPath) :
    ∀ b : FsPath, strEndsWith (lastName a) markerSuffix = true →
      strEndsWith (lastName b) markerSuffix = true →
      stripLast a = stripLast b → a = b := by
  induction a with
  | nil =>
    intro b _ _ h
    cases b with
    | nil => rfl
    | cons c d =>
      have := congrArg List.length h
      rw [stripLast_length, stripLast_length] at this
      cases this
  | cons x t ih =>
    intro b ha hb h
    cases b with
    | nil =>
      have := congrArg List.length h
      rw [stripLast_length, stripLast_length] at this
      cases this
    | cons y u =>
      cases t with
      | nil =>
        cases u with
        | nil =>
          simp only [stripLast, List.cons.injEq] at h
          rw [strDropRight_marker_inj x y ha hb h.1]
        | cons z w =>
          have := congrArg List.length h
          rw [stripLast_length, stripLast_length] at this
          simp at this
      | cons p q =>
        cases u with
        | nil =>
          have := congrArg List.length h
          rw [stripLast_length, stripLast_length] at this
          simp at this
        | cons z w =>
          simp only [stripLast, List.cons.injEq] at h
          have := ih (z :: w) ha hb h.2
          rw [h.1, this]

theorem stripLast_ne_nil (l : FsPath) (h : l ≠ []) : stripLast l ≠ [] := by
  intro hc
  have := congrArg List.length hc
  rw [stripLast_length] at this
  exact h (List.length_eq_zero.mp this)

theorem suffixLast_ne_nil (l : FsPath) (h : l ≠ []) : suffixLast l ≠ [] := by
  intro hc
  have := congrArg List.length hc
  rw [suffixLast_length] at this
  exact h (List.length_eq_zero.mp this)

/-! Helper lemmas about the registry and the file transcoders. -/

theorem get_compression_function_unknown (alg : String) (h : alg ∉ knownAlgorithms) :
    get_compression_function alg = Except.error Err.unsupportedAlgorithm := by
  have h1 : ¬ alg = CompressionAlgorithm.GZIP := fun hc => h (by rw [hc]; simp [knownAlgorithms])
  have h2 : ¬ alg = CompressionAlgorithm.ZLIB := fun hc => h (by rw [hc]; simp [knownAlgorithms])
  have h3 : ¬ alg = CompressionAlgorithm.BZ2 := fun hc => h (by rw [hc]; simp [knownAlgorithms])
  have h4 : ¬ alg = CompressionAlgorithm.LZMA := fun hc => h (by rw [hc]; simp [knownAlgorithms])
  simp [get_compression_function, h1, h2, h3, h4]

theorem get_decompression_function_unknown (alg : String) (h : alg ∉ knownAlgorithms) :
    get_decompression_function alg = Except.error Err.unsupportedAlgorithm := by
  have h1 : ¬ alg = CompressionAlgorithm.GZIP := fun hc => h (by rw [hc]; simp [knownAlgorithms])
  have h2 : ¬ alg = CompressionAlgorithm.ZLIB := fun hc => h (by rw [hc]; simp [knownAlgorithms])
  have h3 : ¬ alg = CompressionAlgorithm.BZ2 := fun hc => h (by rw [hc]; simp [knownAlgorithms])
  have h4 : ¬ alg = CompressionAlgorithm.LZMA := fun hc => h (by rw [hc]; simp [knownAlgorithms])
  simp [get_decompression_function, h1, h2, h3, h4]

theorem registry_roundtrip (alg : String) (h : alg ∈ knownAlgorithms) :
    ∃ enc dec, get_compression_function alg = Except.ok enc ∧
      get_decompression_function alg = Except.ok dec ∧
      ∀ x : Bytes, dec (enc x) = Except.ok x := by
  simp only [knownAlgorithms, List.mem_cons, List.not_mem_nil, or_false] at h
  rcases h with h | h | h | h <;> subst h
  · refine ⟨modelEncode 0, modelDecode 0, by simp [get_compression_function, CompressionAlgorithm.GZIP],
      by simp [get_decompression_function, CompressionAlgorithm.GZIP], fun x => by simp [modelEncode, modelDecode]⟩
  · refine ⟨modelEncode 1, modelDecode 1, ?_, ?_, fun x => by simp [modelEncode, modelDecode]⟩
    · simp [get_compression_function, CompressionAlgorithm.ZLIB, CompressionAlgorithm.GZIP]
    · simp [get_decompression_function, CompressionAlgorithm.ZLIB, CompressionAlgorithm.GZIP]
  · refine ⟨modelEncode 2, modelDecode 2, ?_, ?_, fun x => by simp [modelEncode, modelDecode]⟩
    · simp [get_compression_function, CompressionAlgorithm.BZ2, CompressionAlgorithm.GZIP,
        CompressionAlgorithm.ZLIB]
    · simp [get_decompression_function, CompressionAlgorithm.BZ2, CompressionAlgorithm.GZIP,
        CompressionAlgorithm.ZLIB]
  · refine ⟨modelEncode 3, modelDecode 3, ?_, ?_, fun x => by simp [modelEncode, modelDecode]⟩
    · simp [get_compression_function, CompressionAlgorithm.LZMA, CompressionAlgorithm.GZIP,
        CompressionAlgorithm.ZLIB, CompressionAlgorithm.BZ2]
    · simp [get_decompression_function, CompressionAlgorithm.LZMA, CompressionAlgorithm.GZIP,
        CompressionAlgorithm.ZLIB, CompressionAlgorithm.BZ2]

theorem compress_file_ok (fs : FS) (src tgt : FsPath) (alg : String)
    (enc : Bytes → Bytes) (d : Bytes)
    (he : get_compression_function alg = Except.ok enc)
    (hr : fs.read src = some d) :
    compress_file fs src tgt alg =
      { fs := fs.write tgt (enc d),
        logs := [LogRec.fileLog Mode.compress src tgt alg], err := none } := by
  simp [compress_file, he, hr]

theorem decompress_file_ok (fs : FS) (src tgt : FsPath) (alg : String)
    (dec : Bytes → Except Unit Bytes) (d d2 : Bytes)
    (he : get_decompression_function alg = Except.ok dec)
    (hr : fs.read src = some d) (hd : dec d = Except.ok d2) :
    decompress_file fs src tgt alg =
      { fs := fs.write tgt d2,
        logs := [LogRec.fileLog Mode.decompress src tgt alg], err := none } := by
  simp [decompress_file, he, hr, hd]

theorem decompress_file_error (fs : FS) (src tgt : FsPath) (alg : String)
    (dec : Bytes → Except Unit Bytes) (d : Bytes) (u : Unit)
    (he : get_decompression_function alg = Except.ok dec)
    (hr : fs.read src = some d) (hd : dec d = Except.error u) :
    decompress_file fs src tgt alg =
      { fs := fs, logs := [], err := some Err.codecFailure } := by
  simp [decompress_file, he, hr, hd]

/-! Helper lemmas about the walk job lists. -/

theorem mem_filesUnder (fs : FS) (root : FsPath) (e : FsPath × Bytes) :
    e ∈ filesUnder fs root ↔ e ∈ fs ∧ pathUnder root e.1 = true := by
  simp [filesUnder, List.mem_filter]

theorem read_of_mem_filesUnder (fs : FS) (root : FsPath) (e : FsPath × Bytes)
    (hk : FS.keysNodup fs) (hm : e ∈ filesUnder fs root) : fs.read e.1 = some e.2 :=
  FS.read_eq_some_of_mem fs e.1 e.2 hk ((mem_filesUnder fs root e).mp hm).1

theorem FS.eq_of_mem_of_fst_eq (fs : FS) (e1 e2 : FsPath × Bytes)
    (hk : fs.keysNodup) (h1 : e1 ∈ fs) (h2 : e2 ∈ fs) (hf : e1.1 = e2.1) : e1 = e2 := by
  have r1 : fs.read e1.1 = some e1.2 := FS.read_eq_some_of_mem fs e1.1 e1.2 hk h1
  have r2 : fs.read e2.1 = some e2.2 := FS.read_eq_some_of_mem fs e2.1 e2.2 hk h2
  rw [hf, r2] at r1
  have : e1.2 = e2.2 := (Option.some.injEq _ _).mp r1.symm
  exact Prod.ext hf this

theorem filesUnder_nodup (fs : FS) (root : FsPath) (hk : FS.keysNodup fs) :
    (filesUnder fs root).Nodup :=
  (List.Nodup.of_map Prod.fst hk).filter _

theorem filterMap_ite {α β : Type} (l : List α) (p : α → Bool) (g : α → β) :
    l.filterMap (fun a => if p a then some (g a) else none) = (l.filter p).map g := by
  induction l with
  | nil => rfl
  | cons a t ih =>
    by_cases h : p a = true
    · simp [List.filterMap_cons, List.filter_cons, h, ih]
    · simp only [Bool.not_eq_true] at h
      simp [List.filterMap_cons, List.filter_cons, h, ih]

theorem decompressJobs_eq (fs : FS) (inR outR : FsPath) :
    decompressJobs fs inR outR =
      ((filesUnder fs inR).filter
          (fun e => strEndsWith (lastName (e.1.drop inR.length)) markerSuffix)).map
        (fun e => (e.1, outR ++ stripLast (e.1.drop inR.length))) := by
  unfold decompressJobs
  exact filterMap_ite _ _ _

theorem compressJobs_side (fs : FS) (inR outR : FsPath)
    (hk : FS.keysNodup fs) (hdisj : ∀ e ∈ fs, pathUnder outR e.1 = false) :
    ∀ j ∈ compressJobs fs inR outR,
      pathUnder outR j.1 = false ∧ pathUnder outR j.2 = true ∧ (fs.read j.1).isSome := by
  intro j hj
  unfold compressJobs at hj
  obtain ⟨e, he, rfl⟩ := List.mem_map.mp hj
  obtain ⟨hef, heu⟩ := (mem_filesUnder fs inR e).mp he
  refine ⟨hdisj e hef, ?_, ?_⟩
  · exact pathUnder_append_self outR _
      (suffixLast_ne_nil _ (drop_ne_nil_of_pathUnder inR e.1 heu))
  · rw [read_of_mem_filesUnder fs inR e hk he]; rfl

theorem compressJobs_targets_nodup (fs : FS) (inR outR : FsPath)
    (hk : FS.keysNodup fs) :
    ((compressJobs fs inR outR).map Prod.snd).Nodup := by
  unfold compressJobs
  rw [List.map_map]
  apply List.Nodup.map_on ?_ (filesUnder_nodup fs inR hk)
  intro e1 h1 e2 h2 heq
  simp only [Function.comp] at heq
  have hs := suffixLast_inj _ _ (List.append_cancel_left heq)
  have hu1 := ((mem_filesUnder fs inR e1).mp h1).2
  have hu2 := ((mem_filesUnder fs inR e2).mp h2).2
  have hkeq : e1.1 = e2.1 := by
    rw [eq_append_drop_of_pathStarts inR e1.1 (pathUnder_spec _ _ hu1).1, hs,
      ← eq_append_drop_of_pathStarts inR e2.1 (pathUnder_spec _ _ hu2).1]
  exact FS.eq_of_mem_of_fst_eq fs e1 e2 hk
    ((mem_filesUnder fs inR e1).mp h1).1 ((mem_filesUnder fs inR e2).mp h2).1 hkeq

theorem decompressJobs_side (fs : FS) (inR outR : FsPath)
    (hk : FS.keysNodup fs) (hdisj : ∀ e ∈ fs, pathUnder outR e.1 = false) :
    ∀ j ∈ decompressJobs fs inR outR,
      pathUnder outR j.1 = false ∧ pathUnder outR j.2 = true ∧ (fs.read j.1).isSome := by
  intro j hj
  rw [decompressJobs_eq] at hj
  obtain ⟨e, he, rfl⟩ := List.mem_map.mp hj
  obtain ⟨hef, _⟩ := List.mem_filter.mp he
  obtain ⟨hefs, heu⟩ := (mem_filesUnder fs inR e).mp hef
  refine ⟨hdisj e hefs, ?_, ?_⟩
  · exact pathUnder_append_self outR _
      (stripLast_ne_nil _ (drop_ne_nil_of_pathUnder inR e.1 heu))
  · rw [read_of_mem_filesUnder fs inR e hk hef]; rfl

theorem decompressJobs_targets_nodup (fs : FS) (inR outR : FsPath)
    (hk : FS.keysNodup fs) :
    ((decompressJobs fs inR outR).map Prod.snd).Nodup := by
  rw [decompressJobs_eq, List.map_map]
  apply List.Nodup.map_on ?_ ((filesUnder_nodup fs inR hk).filter _)
  intro e1 h1 e2 h2 heq
  simp only [Function.comp] at heq
  obtain ⟨hf1, helig1⟩ := List.mem_filter.mp h1
  obtain ⟨hf2, helig2⟩ := List.mem_filter.mp h2
  have hu1 := ((mem_filesUnder fs inR e1).mp hf1).2
  have hu2 := ((mem_filesUnder fs inR e2).mp hf2).2
  have hs := stripLast_marker_inj _ _ helig1 helig2 (List.append_cancel_left heq)
  have hkeq : e1.1 = e2.1 := by
    rw [eq_append_drop_of_pathStarts inR e1.1 (pathUnder_spec _ _ hu1).1, hs,
      ← eq_append_drop_of_pathStarts inR e2.1 (pathUnder_spec _ _ hu2).1]
  exact FS.eq_of_mem_of_fst_eq fs e1 e2 hk
    ((mem_filesUnder fs inR e1).mp hf1).1 ((mem_filesUnder fs inR e2).mp hf2).1 hkeq

/-! The walk characterization lemmas, shared by both directory walkers. -/

theorem walkJobs_writer
    (step : FS → FsPath × FsPath → Res)
    (out : FsPath × FsPath → Bytes → Bytes)
    (lg : FsPath × FsPath → LogRec)
    (outRoot : FsPath) :
    ∀ (jobs : List (FsPath × FsPath)) (fs : FS),
      FS.keysNodup fs →
      (∀ j ∈ jobs, pathUnder outRoot j.1 = false ∧ pathUnder outRoot j.2 = true) →
      (∀ j ∈ jobs, (fs.read j.1).isSome) →
      (∀ (fs2 : FS), ∀ j ∈ jobs, ∀ d : Bytes, fs2.read j.1 = some d →
        fs.read j.1 = some d →
        step fs2 j = { fs := fs2.write j.2 (out j d), logs := [lg j], err := none }) →
      ((jobs.map Prod.snd).Nodup) →
      (walkJobs step fs jobs).err = none ∧
      FS.keysNodup (walkJobs step fs jobs).fs ∧
      (∀ p, pathUnder outRoot p = false → (walkJobs step fs jobs).fs.read p = fs.read p) ∧
      (∀ p, pathUnder outRoot p = true → (∀ j ∈ jobs, j.2 ≠ p) →
        (walkJobs step fs jobs).fs.read p = fs.read p) ∧
      (∀ j ∈ jobs, (walkJobs step fs jobs).fs.read j.2 = (fs.read j.1).map (out j)) ∧
      (walkJobs step fs jobs).logs = jobs.map lg := by
  intro jobs
  induction jobs with
  | nil =>
    intro fs hk _ _ _ _
    exact ⟨rfl, hk, fun p _ => rfl, fun p _ _ => rfl,
      fun j hj => absurd hj (List.not_mem_nil j), rfl⟩
  | cons j rest ih =>
    intro fs hk hjobs hdata hstep htn
    obtain ⟨hj1, hj2⟩ := hjobs j (List.mem_cons_self j rest)
    obtain ⟨d, hd⟩ := Option.isSome_iff_exists.mp (hdata j (List.mem_cons_self j rest))
    have hstepj := hstep fs j (List.mem_cons_self j rest) d hd hd
    rw [List.map_cons, List.nodup_cons] at htn
    obtain ⟨htn1, htn2⟩ := htn
    have hwalk : walkJobs step fs (j :: rest) =
        { fs := (walkJobs step (fs.write j.2 (out j d)) rest).fs,
          logs := lg j :: (walkJobs step (fs.write j.2 (out j d)) rest).logs,
          err := (walkJobs step (fs.write j.2 (out j d)) rest).err } := by
      simp [walkJobs, hstepj]
    have hpres : ∀ q : FsPath, q ≠ j.2 →
        (fs.write j.2 (out j d)).read q = fs.read q := by
      intro q hq
      rw [FS.read_write]
      simp [hq]
    have hsrc : ∀ j' ∈ rest, (fs.write j.2 (out j d)).read j'.1 = fs.read j'.1 := by
      intro j' hj'
      exact hpres j'.1 (Ne.symm (ne_of_pathUnder_true_false outRoot j.2 j'.1 hj2
        (hjobs j' (List.mem_cons_of_mem j hj')).1))
    have hIH := ih (fs.write j.2 (out j d))
      (FS.keysNodup_write fs j.2 (out j d) hk)
      (fun j' hj' => hjobs j' (List.mem_cons_of_mem j hj'))
      (fun j' hj' => by rw [hsrc j' hj']; exact hdata j' (List.mem_cons_of_mem j hj'))
      (fun fs2 j' hj' d' hr2 hr1 => hstep fs2 j' (List.mem_cons_of_mem j hj') d' hr2
        (by rw [hsrc j' hj'] at hr1; exact hr1))
      htn2
    obtain ⟨e1, e2, e3, e4, e5, e6⟩ := hIH
    refine ⟨?_, ?_, ?_, ?_, ?_, ?_⟩
    · rw [hwalk]; exact e1
    · rw [hwalk]; exact e2
    · intro p hp
      rw [hwalk]
      show (walkJobs step (fs.write j.2 (out j d)) rest).fs.read p = fs.read p
      rw [e3 p hp]
      exact hpres p (Ne.symm (ne_of_pathUnder_true_false outRoot j.2 p hj2 hp))
    · intro p hp hnot
      rw [hwalk]
      show (walkJobs step (fs.write j.2 (out j d)) rest).fs.read p = fs.read p
      rw [e4 p hp (fun j' hj' => hnot j' (List.mem_cons_of_mem j hj'))]
      exact hpres p (Ne.symm (hnot j (List.mem_cons_self j rest)))
    · intro j' hj'
      rcases List.mem_cons.mp hj' with heq | hj'r
      · subst heq
        rw [hwalk]
        show (walkJobs step (fs.write j'.2 (out j' d)) rest).fs.read j'.2
          = (fs.read j'.1).map (out j')
        have htarget : ∀ a ∈ rest, a.2 ≠ j'.2 := by
          intro a ha hc
          apply htn1
          rw [← hc]
          exact List.mem_map_of_mem Prod.snd ha
        rw [e4 j'.2 hj2 htarget, FS.read_write, hd]
        simp
      · rw [hwalk]
        show (walkJobs step (fs.write j.2 (out j d)) rest).fs.read j'.2
          = (fs.read j'.1).map (out j')
        rw [e5 j' hj'r, hsrc j' hj'r]
    · rw [hwalk]
      show lg j :: (walkJobs step (fs.write j.2 (out j d)) rest).logs = (j :: rest).map lg
      rw [e6, List.map_cons]

theorem walkJobs_abort
    (step : FS → FsPath × FsPath → Res)
    (out : FsPath × FsPath → Bytes → Bytes)
    (lg : FsPath × FsPath → LogRec)
    (outRoot : FsPath) (e0 : Err) (bad : FsPath × FsPath)
    (rest : List (FsPath × FsPath)) :
    ∀ (good : List (FsPath × FsPath)) (fs : FS),
      FS.keysNodup fs →
      (∀ j ∈ good ++ bad :: rest, pathUnder outRoot j.1 = false ∧ pathUnder outRoot j.2 = true) →
      (∀ j ∈ good, (fs.read j.1).isSome) →
      (∀ (fs2 : FS), ∀ j ∈ good, ∀ d : Bytes, fs2.read j.1 = some d →
        fs.read j.1 = some d →
        step fs2 j = { fs := fs2.write j.2 (out j d), logs := [lg j], err := none }) →
      (∀ fs2 : FS, fs2.read bad.1 = fs.read bad.1 →
        step fs2 bad = { fs := fs2, logs := [], err := some e0 }) →
      (walkJobs step fs (good ++ bad :: rest)).err = some e0 ∧
      (walkJobs step fs (good ++ bad :: rest)).logs = good.map lg ∧
      (∀ p, pathUnder outRoot p = true → (∀ j ∈ good, j.2 ≠ p) →
        (walkJobs step fs (good ++ bad :: rest)).fs.read p = fs.read p) := by
  intro good
  induction good with
  | nil =>
    intro fs _ _ _ _ hbad
    have hb := hbad fs rfl
    have hwalk : walkJobs step fs ([] ++ bad :: rest) =
        { fs := fs, logs := [], err := some e0 } := by
      simp [walkJobs, hb]
    refine ⟨?_, ?_, ?_⟩
    · rw [hwalk]
    · rw [hwalk]; rfl
    · intro p _ _
      rw [hwalk]
  | cons j good2 ih =>
    intro fs hk hjobs hdata hstep hbad
    have hjmem : j ∈ (j :: good2) ++ bad :: rest := List.mem_cons_self j _
    obtain ⟨hj1, hj2⟩ := hjobs j hjmem
    obtain ⟨d, hd⟩ := Option.isSome_iff_exists.mp (hdata j (List.mem_cons_self j good2))
    have hstepj := hstep fs j (List.mem_cons_self j good2) d hd hd
    have hwalk : walkJobs step fs ((j :: good2) ++ bad :: rest) =
        { fs := (walkJobs step (fs.write j.2 (out j d)) (good2 ++ bad :: rest)).fs,
          logs := lg j :: (walkJobs step (fs.write j.2 (out j d)) (good2 ++ bad :: rest)).logs,
          err := (walkJobs step (fs.write j.2 (out j d)) (good2 ++ bad :: rest)).err } := by
      simp [walkJobs, hstepj]
    have hpres : ∀ q : FsPath, q ≠ j.2 →
        (fs.write j.2 (out j d)).read q = fs.read q := by
      intro q hq
      rw [FS.read_write]
      simp [hq]
    have hsrc : ∀ j' ∈ good2 ++ bad :: rest,
        (fs.write j.2 (out j d)).read j'.1 = fs.read j'.1 := by
      intro j' hj'
      exact hpres j'.1 (Ne.symm (ne_of_pathUnder_true_false outRoot j.2 j'.1 hj2
        (hjobs j' (List.mem_cons_of_mem j hj')).1))
    have hbadmem : bad ∈ good2 ++ bad :: rest :=
      List.mem_append_right good2 (List.mem_cons_self bad rest)
    have hIH := ih (fs.write j.2 (out j d))
      (FS.keysNodup_write fs j.2 (out j d) hk)
      (fun j' hj' => hjobs j' (List.mem_cons_of_mem j hj'))
      (fun j' hj' => by
        rw [hsrc j' (List.mem_append_left _ hj')]
        exact hdata j' (List.mem_cons_of_mem j hj'))
      (fun fs2 j' hj' d' hr2 hr1 => hstep fs2 j' (List.mem_cons_of_mem j hj') d' hr2
        (by rw [hsrc j' (List.mem_append_left _ hj')] at hr1; exact hr1))
      (fun fs2 h2 => hbad fs2 (h2.trans (hsrc bad hbadmem)))
    obtain ⟨e1, e2, e3⟩ := hIH
    refine ⟨?_, ?_, ?_⟩
    · rw [hwalk]; exact e1
    · rw [hwalk]
      show lg j :: (walkJobs step (fs.write j.2 (out j d)) (good2 ++ bad :: rest)).logs
        = (j :: good2).map lg
      rw [e2, List.map_cons]
    · intro p hp hnot
      rw [hwalk]
      show (walkJobs step (fs.write j.2 (out j d)) (good2 ++ bad :: rest)).fs.read p
        = fs.read p
      rw [e3 p hp (fun j' hj' => hnot j' (List.mem_cons_of_mem j hj'))]
      exact hpres p (Ne.symm (hnot j (List.mem_cons_self j good2)))

/-! The claims. -/

/-- C1: for every algorithm identifier in the fixed set (gzip, zlib, bz2,
lzma) and every byte sequence x, including the empty sequence, the decode
function the registry returns for the identifier inverts the encode
function it returns: decode (encode x) = x. -/
theorem spec_C1_roundtrip (algorithm : String) (x : Bytes)
    (h : algorithm ∈ knownAlgorithms) :
    ∃ enc dec, get_compression_function algorithm = Except.ok enc ∧
      get_decompression_function algorithm = Except.ok dec ∧
      dec (enc x) = Except.ok x := by
  obtain ⟨enc, dec, h1, h2, h3⟩ := registry_roundtrip algorithm h
  exact ⟨enc, dec, h1, h2, h3 x⟩

theorem spec_C1_roundtrip_witness :
    "gzip" ∈ knownAlgorithms ∧
    (∃ enc dec, get_compression_function "gzip" = Except.ok enc ∧
      get_decompression_function "gzip" = Except.ok dec ∧
      dec (enc []) = Except.ok []) :=
  ⟨by decide, spec_C1_roundtrip "gzip" [] (by decide)⟩

/-- C4: for every algorithm identifier outside the fixed set, both file
transcoders fail with the unsupported-algorithm error before any file I/O:
the filesystem is returned unchanged (no file opened, read, written or
created), whatever the filesystem contents, and no log record is emitted. -/
theorem spec_C4_unknown_algorithm (algorithm : String) (fs : FS) (src dst : FsPath)
    (h : algorithm ∉ knownAlgorithms) :
    compress_file fs src dst algorithm =
      { fs := fs, logs := [], err := some Err.unsupportedAlgorithm } ∧
    decompress_file fs src dst algorithm =
      { fs := fs, logs := [], err := some Err.unsupportedAlgorithm } := by
  constructor
  · simp [compress_file, get_compression_function_unknown algorithm h]
  · simp [decompress_file, get_decompression_function_unknown algorithm h]

theorem spec_C4_unknown_algorithm_witness :
    "tar" ∉ knownAlgorithms ∧
    (compress_file [(["s"], [7])] ["s"] ["t"] "tar" =
      { fs := [(["s"], [7])], logs := [], err := some Err.unsupportedAlgorithm } ∧
    decompress_file [(["s"], [7])] ["s"] ["t"] "tar" =
      { fs := [(["s"], [7])], logs := [], err := some Err.unsupportedAlgorithm }) :=
  ⟨by decide, spec_C4_unknown_algorithm "tar" [(["s"], [7])] ["s"] ["t"] (by decide)⟩

/-- C5: the claim that the argparse choices accept exactly the four
algorithm names fails on the code.  The choices list is built from
CompressionAlgorithm.__dict__.values(), which also contains the __qualname__
entry, so the parser accepts the string CompressionAlgorithm (and the
module-name string) even though it names no algorithm, while still accepting
the four real names. -/
theorem spec_C5_choices_leak :
    algorithmChoiceAccepts "gzip" = true ∧
    algorithmChoiceAccepts "zlib" = true ∧
    algorithmChoiceAccepts "bz2" = true ∧
    algorithmChoiceAccepts "lzma" = true ∧
    algorithmChoiceAccepts "CompressionAlgorithm" = true ∧
    knownAlgorithms.contains "CompressionAlgorithm" = false := by
  decide

/-- C6: when the input path refers to neither an existing regular file nor
an existing directory, the compress/decompress dispatch reports the error
(`SourceNotFound` in the spec taxonomy), performs no transcode, and creates
no output file: the filesystem is returned unchanged. -/
theorem spec_C6_invalid_input (fs : FS) (m : Mode) (input output : FsPath)
    (algorithm : String)
    (hfile : fs.isFile input = false) (hdir : fs.isDir input = false) :
    run_transcode fs m input output algorithm =
      { fs := fs, logs := [LogRec.invalidInput input], err := some Err.sourceNotFound } := by
  simp [run_transcode, hfile, hdir]

theorem spec_C6_invalid_input_witness :
    FS.isFile [(["a", "x"], [1])] ["z"] = false ∧
    FS.isDir [(["a", "x"], [1])] ["z"] = false ∧
    run_transcode [(["a", "x"], [1])] Mode.compress ["z"] ["w"] "gzip" =
      { fs := [(["a", "x"], [1])], logs := [LogRec.invalidInput ["z"]],
        err := some Err.sourceNotFound } :=
  ⟨by decide, by decide,
    spec_C6_invalid_input [(["a", "x"], [1])] Mode.compress ["z"] ["w"] "gzip"
      (by decide) (by decide)⟩

/-- C7: on success each file transcoder writes to the destination exactly
the codec output for the full source contents (encode when compressing,
decode when decompressing), overwriting whatever was at the destination
path before, and touches no other path (no partly written or temporary files). -/
theorem spec_C7_transcode_file (fs1 fs2 : FS) (s1 t1 s2 t2 : FsPath)
    (alg1 alg2 : String) (enc : Bytes → Bytes) (d1 : Bytes)
    (dec : Bytes → Except Unit Bytes) (d2 d2' : Bytes)
    (he : get_compression_function alg1 = Except.ok enc)
    (hr1 : fs1.read s1 = some d1)
    (hd : get_decompression_function alg2 = Except.ok dec)
    (hr2 : fs2.read s2 = some d2)
    (hdec : dec d2 = Except.ok d2') :
    ((compress_file fs1 s1 t1 alg1).err = none ∧
     (compress_file fs1 s1 t1 alg1).fs.read t1 = some (enc d1) ∧
     (∀ p, p ≠ t1 → (compress_file fs1 s1 t1 alg1).fs.read p = fs1.read p)) ∧
    ((decompress_file fs2 s2 t2 alg2).err = none ∧
     (decompress_file fs2 s2 t2 alg2).fs.read t2 = some d2' ∧
     (∀ p, p ≠ t2 → (decompress_file fs2 s2 t2 alg2).fs.read p = fs2.read p)) := by
  constructor
  · rw [compress_file_ok fs1 s1 t1 alg1 enc d1 he hr1]
    refine ⟨rfl, ?_, ?_⟩
    · show (fs1.write t1 (enc d1)).read t1 = some (enc d1)
      rw [FS.read_write]
      simp
    · intro p hp
      show (fs1.write t1 (enc d1)).read p = fs1.read p
      rw [FS.read_write]
      simp [hp]
  · rw [decompress_file_ok fs2 s2 t2 alg2 dec d2 d2' hd hr2 hdec]
    refine ⟨rfl, ?_, ?_⟩
    · show (fs2.write t2 d2').read t2 = some d2'
      rw [FS.read_write]
      simp
    · intro p hp
      show (fs2.write t2 d2').read p = fs2.read p
      rw [FS.read_write]
      simp [hp]

theorem spec_C7_transcode_file_witness :
    get_compression_function "gzip" = Except.ok (modelEncode 0) ∧
    FS.read [(["s"], [7]), (["t"], [9])] ["s"] = some [7] ∧
    get_decompression_function "zlib" = Except.ok (modelDecode 1) ∧
    FS.read [(["u"], [1, 9])] ["u"] = some [1, 9] ∧
    modelDecode 1 [1, 9] = Except.ok [9] ∧
    (((compress_file [(["s"], [7]), (["t"], [9])] ["s"] ["t"] "gzip").err = none ∧
      (compress_file [(["s"], [7]), (["t"], [9])] ["s"] ["t"] "gzip").fs.read ["t"]
        = some (modelEncode 0 [7]) ∧
      (∀ p, p ≠ ["t"] →
        (compress_file [(["s"], [7]), (["t"], [9])] ["s"] ["t"] "gzip").fs.read p
          = FS.read [(["s"], [7]), (["t"], [9])] p)) ∧
     ((decompress_file [(["u"], [1, 9])] ["u"] ["v"] "zlib").err = none ∧
      (decompress_file [(["u"], [1, 9])] ["u"] ["v"] "zlib").fs.read ["v"] = some [9] ∧
      (∀ p, p ≠ ["v"] →
        (decompress_file [(["u"], [1, 9])] ["u"] ["v"] "zlib").fs.read p
          = FS.read [(["u"], [1, 9])] p))) :=
  ⟨by simp [get_compression_function, CompressionAlgorithm.GZIP], by decide,
   by simp [get_decompression_function, CompressionAlgorithm.ZLIB, CompressionAlgorithm.GZIP],
   by decide, rfl,
   spec_C7_transcode_file [(["s"], [7]), (["t"], [9])] [(["u"], [1, 9])]
     ["s"] ["t"] ["u"] ["v"] "gzip" "zlib" (modelEncode 0) [7] (modelDecode 1) [1, 9] [9]
     (by simp [get_compression_function, CompressionAlgorithm.GZIP]) (by decide)
     (by simp [get_decompression_function, CompressionAlgorithm.ZLIB, CompressionAlgorithm.GZIP])
     (by decide) rfl⟩

/-- C8: decompressing a source file whose bytes are not a valid encoding
for the chosen (known) algorithm, such as corrupted data or data produced
by a different algorithm, fails with the codec-failure error. -/
theorem spec_C8_codec_failure (fs : FS) (src dst : FsPath) (alg : String)
    (dec : Bytes → Except Unit Bytes) (d : Bytes)
    (hdec : get_decompression_function alg = Except.ok dec)
    (hr : fs.read src = some d) (hbad : dec d = Except.error ()) :
    (decompress_file fs src dst alg).err = some Err.codecFailure := by
  rw [decompress_file_error fs src dst alg dec d () hdec hr hbad]

theorem spec_C8_codec_failure_witness :
    get_decompression_function "gzip" = Except.ok (modelDecode 0) ∧
    FS.read [(["f"], [1, 5])] ["f"] = some [1, 5] ∧
    modelDecode 0 [1, 5] = Except.error () ∧
    (decompress_file [(["f"], [1, 5])] ["f"] ["g"] "gzip").err = some Err.codecFailure :=
  ⟨by simp [get_decompression_function, CompressionAlgorithm.GZIP], by decide, rfl,
   spec_C8_codec_failure [(["f"], [1, 5])] ["f"] ["g"] "gzip" (modelDecode 0) [1, 5]
     (by simp [get_decompression_function, CompressionAlgorithm.GZIP]) (by decide) rfl⟩

/-- C10: when decompress_file fails with the codec-failure error, the
destination path is untouched: the decode runs before the destination is
opened for writing, so the whole filesystem, and in particular any file
already at the destination path, is exactly as before the call. -/
theorem spec_C10_dest_untouched (fs : FS) (src dst : FsPath) (alg : String)
    (dec : Bytes → Except Unit Bytes) (d : Bytes)
    (hdec : get_decompression_function alg = Except.ok dec)
    (hr : fs.read src = some d) (hbad : dec d = Except.error ()) :
    (decompress_file fs src dst alg).fs = fs ∧
    (decompress_file fs src dst alg).fs.read dst = fs.read dst ∧
    (decompress_file fs src dst alg).err = some Err.codecFailure := by
  rw [decompress_file_error fs src dst alg dec d () hdec hr hbad]
  exact ⟨rfl, rfl, rfl⟩

theorem spec_C10_dest_untouched_witness :
    get_decompression_function "gzip" = Except.ok (modelDecode 0) ∧
    FS.read [(["f"], [1, 5]), (["g"], [42])] ["f"] = some [1, 5] ∧
    modelDecode 0 [1, 5] = Except.error () ∧
    ((decompress_file [(["f"], [1, 5]), (["g"], [42])] ["f"] ["g"] "gzip").fs
        = [(["f"], [1, 5]), (["g"], [42])] ∧
     (decompress_file [(["f"], [1, 5]), (["g"], [42])] ["f"] ["g"] "gzip").fs.read ["g"]
        = FS.read [(["f"], [1, 5]), (["g"], [42])] ["g"] ∧
     (decompress_file [(["f"], [1, 5]), (["g"], [42])] ["f"] ["g"] "gzip").err
        = some Err.codecFailure) :=
  ⟨by simp [get_decompression_function, CompressionAlgorithm.GZIP], by decide, rfl,
   spec_C10_dest_untouched [(["f"], [1, 5]), (["g"], [42])] ["f"] ["g"] "gzip"
     (modelDecode 0) [1, 5] (by simp [get_decompression_function, CompressionAlgorithm.GZIP]) (by decide) rfl⟩

/-- C2: after compress_directory runs on a source tree with a known
algorithm (and a destination tree that holds no files yet), every regular
file at relative path R below the source root has exactly one file in the
destination tree, at the destination root followed by the same relative
path with the marker appended to the filename (directory nesting
preserved), and decoding that file with the same algorithm returns the
original contents. -/
theorem spec_C2_compress_tree (fs : FS) (inR outR : FsPath) (algorithm : String)
    (halg : algorithm ∈ knownAlgorithms)
    (hkeys : FS.keysNodup fs)
    (hdisj : ∀ e ∈ fs, pathUnder outR e.1 = false) :
    (compress_directory fs inR outR algorithm).err = none ∧
    ∀ e ∈ filesUnder fs inR,
      (compress_directory fs inR outR algorithm).fs.countP
          (fun x => decide (x.1 = outR ++ suffixLast (e.1.drop inR.length))) = 1 ∧
      ∃ contents dec,
        (compress_directory fs inR outR algorithm).fs.read
            (outR ++ suffixLast (e.1.drop inR.length)) = some contents ∧
        get_decompression_function algorithm = Except.ok dec ∧
        dec contents = Except.ok e.2 := by
  obtain ⟨enc, dec, he, hde, hrt⟩ := registry_roundtrip algorithm halg
  have hside := compressJobs_side fs inR outR hkeys hdisj
  have hw := walkJobs_writer (fun s j => compress_file s j.1 j.2 algorithm)
      (fun j d => enc d)
      (fun j => LogRec.fileLog Mode.compress j.1 j.2 algorithm)
      outR (compressJobs fs inR outR) fs hkeys
      (fun j hj => ⟨(hside j hj).1, (hside j hj).2.1⟩)
      (fun j hj => (hside j hj).2.2)
      (fun fs2 j hj d hr2 _ => compress_file_ok fs2 j.1 j.2 algorithm enc d he hr2)
      (compressJobs_targets_nodup fs inR outR hkeys)
  obtain ⟨e1, e2, e3, e4, e5, e6⟩ := hw
  have hcd : compress_directory fs inR outR algorithm =
      { fs := (walkJobs (fun s j => compress_file s j.1 j.2 algorithm) fs
          (compressJobs fs inR outR)).fs,
        logs := (walkJobs (fun s j => compress_file s j.1 j.2 algorithm) fs
          (compressJobs fs inR outR)).logs
          ++ [LogRec.dirLog Mode.compress inR outR algorithm],
        err := none } := by
    simp only [compress_directory]
    rw [e1]
  refine ⟨by rw [hcd], ?_⟩
  intro e he2
  have hjmem : (e.1, outR ++ suffixLast (e.1.drop inR.length)) ∈ compressJobs fs inR outR := by
    unfold compressJobs
    exact List.mem_map_of_mem _ he2
  have hread : (walkJobs (fun s j => compress_file s j.1 j.2 algorithm) fs
      (compressJobs fs inR outR)).fs.read (outR ++ suffixLast (e.1.drop inR.length))
      = (fs.read e.1).map (fun d => enc d) := e5 _ hjmem
  have hsome : fs.read e.1 = some e.2 := read_of_mem_filesUnder fs inR e hkeys he2
  have hread2 : (walkJobs (fun s j => compress_file s j.1 j.2 algorithm) fs
      (compressJobs fs inR outR)).fs.read (outR ++ suffixLast (e.1.drop inR.length))
      = some (enc e.2) := by
    rw [hread, hsome, Option.map_some']
  refine ⟨?_, enc e.2, dec, ?_, hde, hrt e.2⟩
  · rw [hcd]
    exact FS.countP_key_eq_one _ _ (enc e.2) e2 hread2
  · rw [hcd]
    exact hread2

theorem spec_C2_compress_tree_witness :
    "gzip" ∈ knownAlgorithms ∧
    FS.keysNodup [(["a", "x.txt"], [104, 105]), (["a", "sub", "y.txt"], [])] ∧
    (∀ e ∈ ([(["a", "x.txt"], [104, 105]), (["a", "sub", "y.txt"], [])] : FS),
      pathUnder ["b"] e.1 = false) ∧
    ((compress_directory [(["a", "x.txt"], [104, 105]), (["a", "sub", "y.txt"], [])]
        ["a"] ["b"] "gzip").err = none ∧
     ∀ e ∈ filesUnder [(["a", "x.txt"], [104, 105]), (["a", "sub", "y.txt"], [])] ["a"],
      (compress_directory [(["a", "x.txt"], [104, 105]), (["a", "sub", "y.txt"], [])]
          ["a"] ["b"] "gzip").fs.countP
          (fun x => decide (x.1 = ["b"] ++ suffixLast (e.1.drop (["a"] : FsPath).length))) = 1 ∧
      ∃ contents dec,
        (compress_directory [(["a", "x.txt"], [104, 105]), (["a", "sub", "y.txt"], [])]
            ["a"] ["b"] "gzip").fs.read
            (["b"] ++ suffixLast (e.1.drop (["a"] : FsPath).length)) = some contents ∧
        get_decompression_function "gzip" = Except.ok dec ∧
        dec contents = Except.ok e.2) :=
  ⟨by decide, by decide, by decide,
   spec_C2_compress_tree [(["a", "x.txt"], [104, 105]), (["a", "sub", "y.txt"], [])]
     ["a"] ["b"] "gzip" (by decide) (by decide) (by decide)⟩

theorem mem_decompressJobs (fs : FS) (inR outR : FsPath) (j : FsPath × FsPath) :
    j ∈ decompressJobs fs inR outR ↔
      ∃ e, e ∈ filesUnder fs inR ∧
        strEndsWith (lastName (e.1.drop inR.length)) markerSuffix = true ∧
        j = (e.1, outR ++ stripLast (e.1.drop inR.length)) := by
  rw [decompressJobs_eq]
  constructor
  · intro h
    obtain ⟨e, he, hje⟩ := List.mem_map.mp h
    obtain ⟨hef, helig⟩ := List.mem_filter.mp he
    exact ⟨e, hef, helig, hje.symm⟩
  · rintro ⟨e, hef, helig, rfl⟩
    exact List.mem_map.mpr ⟨e, List.mem_filter.mpr ⟨hef, helig⟩, rfl⟩

/-- Whether a decode attempt succeeded. -/
def decodeOk (x : Except Unit Bytes) : Bool :=
  match x with
  | Except.ok _ => true
  | Except.error _ => false

theorem decodeOk_exists (x : Except Unit Bytes) (h : decodeOk x = true) :
    ∃ d, x = Except.ok d := by
  cases x with
  | ok d => exact ⟨d, rfl⟩
  | error u => cases h

/-- C3: during a decompress-directory walk, every file whose name carries
the marker yields an output file at the same relative path with exactly the
marker stripped; every file without the marker is silently skipped: it
produces no output anywhere below the destination root, gets no log record,
and causes no error. -/
theorem spec_C3_decompress_tree (fs : FS) (inR outR : FsPath) (alg : String)
    (dec : Bytes → Except Unit Bytes)
    (hdec : get_decompression_function alg = Except.ok dec)
    (hkeys : FS.keysNodup fs)
    (hdisj : ∀ e ∈ fs, pathUnder outR e.1 = false)
    (hok : ∀ e ∈ filesUnder fs inR,
      strEndsWith (lastName (e.1.drop inR.length)) markerSuffix = true →
      decodeOk (dec e.2) = true) :
    (decompress_directory fs inR outR alg).err = none ∧
    (∀ e ∈ filesUnder fs inR,
      strEndsWith (lastName (e.1.drop inR.length)) markerSuffix = true →
      ∃ d, dec e.2 = Except.ok d ∧
        (decompress_directory fs inR outR alg).fs.read
          (outR ++ stripLast (e.1.drop inR.length)) = some d) ∧
    (∀ p, pathUnder outR p = true →
      (∀ e ∈ filesUnder fs inR,
        strEndsWith (lastName (e.1.drop inR.length)) markerSuffix = true →
        outR ++ stripLast (e.1.drop inR.length) ≠ p) →
      (decompress_directory fs inR outR alg).fs.read p = none) ∧
    (decompress_directory fs inR outR alg).logs =
      (decompressJobs fs inR outR).map
        (fun j => LogRec.fileLog Mode.decompress j.1 j.2 alg)
        ++ [LogRec.dirLog Mode.decompress inR outR alg] := by
  have hside := decompressJobs_side fs inR outR hkeys hdisj
  have hstep : ∀ (fs2 : FS), ∀ j ∈ decompressJobs fs inR outR, ∀ d : Bytes,
      fs2.read j.1 = some d → fs.read j.1 = some d →
      decompress_file fs2 j.1 j.2 alg =
        { fs := fs2.write j.2 ((fun (_ : FsPath × FsPath) (d : Bytes) =>
            (dec d).toOption.getD []) j d),
          logs := [LogRec.fileLog Mode.decompress j.1 j.2 alg], err := none } := by
    intro fs2 j hj d hr2 hr1
    obtain ⟨e, hef, helig, hje⟩ := (mem_decompressJobs fs inR outR j).mp hj
    have hre : fs.read e.1 = some e.2 := read_of_mem_filesUnder fs inR e hkeys hef
    have hd_eq : d = e.2 := by
      rw [hje] at hr1
      rw [hre] at hr1
      exact (Option.some.injEq _ _).mp hr1.symm
    obtain ⟨d2, hd2⟩ := decodeOk_exists (dec e.2) (hok e hef helig)
    have hdd : dec d = Except.ok d2 := by rw [hd_eq]; exact hd2
    rw [decompress_file_ok fs2 j.1 j.2 alg dec d d2 hdec hr2 hdd]
    simp [hdd, Except.toOption]
  have hw := walkJobs_writer (fun s j => decompress_file s j.1 j.2 alg)
      (fun (_ : FsPath × FsPath) (d : Bytes) => (dec d).toOption.getD [])
      (fun j => LogRec.fileLog Mode.decompress j.1 j.2 alg)
      outR (decompressJobs fs inR outR) fs hkeys
      (fun j hj => ⟨(hside j hj).1, (hside j hj).2.1⟩)
      (fun j hj => (hside j hj).2.2)
      hstep
      (decompressJobs_targets_nodup fs inR outR hkeys)
  obtain ⟨e1, e2, e3, e4, e5, e6⟩ := hw
  have hcd : decompress_directory fs inR outR alg =
      { fs := (walkJobs (fun s j => decompress_file s j.1 j.2 alg) fs
          (decompressJobs fs inR outR)).fs,
        logs := (walkJobs (fun s j => decompress_file s j.1 j.2 alg) fs
          (decompressJobs fs inR outR)).logs
          ++ [LogRec.dirLog Mode.decompress inR outR alg],
        err := none } := by
    simp only [decompress_directory]
    rw [e1]
  refine ⟨by rw [hcd], ?_, ?_, ?_⟩
  · intro e hef helig
    obtain ⟨d2, hd2⟩ := decodeOk_exists (dec e.2) (hok e hef helig)
    have hjmem : (e.1, outR ++ stripLast (e.1.drop inR.length))
        ∈ decompressJobs fs inR outR :=
      (mem_decompressJobs fs inR outR _).mpr ⟨e, hef, helig, rfl⟩
    have hre : fs.read e.1 = some e.2 := read_of_mem_filesUnder fs inR e hkeys hef
    have hread : (walkJobs (fun s j => decompress_file s j.1 j.2 alg) fs
        (decompressJobs fs inR outR)).fs.read (outR ++ stripLast (e.1.drop inR.length))
        = (fs.read e.1).map (fun d => (dec d).toOption.getD []) := e5 _ hjmem
    refine ⟨d2, hd2, ?_⟩
    rw [hcd]
    rw [hread, hre, Option.map_some', hd2]
    rfl
  · intro p hp hne
    have hnotgt : ∀ j ∈ decompressJobs fs inR outR, j.2 ≠ p := by
      intro j hj
      obtain ⟨e, hef, helig, hje⟩ := (mem_decompressJobs fs inR outR j).mp hj
      rw [hje]
      exact hne e hef helig
    rw [hcd]
    rw [e4 p hp hnotgt]
    apply FS.read_eq_none_of_no_key
    intro x hx hc
    exact (ne_of_pathUnder_true_false outR p x.1 hp (hdisj x hx)) hc.symm
  · rw [hcd, e6]

theorem spec_C3_decompress_tree_witness :
    get_decompression_function "gzip" = Except.ok (modelDecode 0) ∧
    FS.keysNodup [(["b", "x.txt.compressed"], [0, 104]), (["b", "skip.txt"], [5]),
      (["b", "sub", "y.txt.compressed"], [0])] ∧
    (∀ e ∈ ([(["b", "x.txt.compressed"], [0, 104]), (["b", "skip.txt"], [5]),
        (["b", "sub", "y.txt.compressed"], [0])] : FS), pathUnder ["c"] e.1 = false) ∧
    (∀ e ∈ filesUnder [(["b", "x.txt.compressed"], [0, 104]), (["b", "skip.txt"], [5]),
        (["b", "sub", "y.txt.compressed"], [0])] ["b"],
      strEndsWith (lastName (e.1.drop (["b"] : FsPath).length)) markerSuffix = true →
      decodeOk (modelDecode 0 e.2) = true) ∧
    ((decompress_directory [(["b", "x.txt.compressed"], [0, 104]), (["b", "skip.txt"], [5]),
        (["b", "sub", "y.txt.compressed"], [0])] ["b"] ["c"] "gzip").err = none ∧
     (∀ e ∈ filesUnder [(["b", "x.txt.compressed"], [0, 104]), (["b", "skip.txt"], [5]),
        (["b", "sub", "y.txt.compressed"], [0])] ["b"],
      strEndsWith (lastName (e.1.drop (["b"] : FsPath).length)) markerSuffix = true →
      ∃ d, modelDecode 0 e.2 = Except.ok d ∧
        (decompress_directory [(["b", "x.txt.compressed"], [0, 104]), (["b", "skip.txt"], [5]),
            (["b", "sub", "y.txt.compressed"], [0])] ["b"] ["c"] "gzip").fs.read
          (["c"] ++ stripLast (e.1.drop (["b"] : FsPath).length)) = some d) ∧
     (∀ p, pathUnder ["c"] p = true →
      (∀ e ∈ filesUnder [(["b", "x.txt.compressed"], [0, 104]), (["b", "skip.txt"], [5]),
          (["b", "sub", "y.txt.compressed"], [0])] ["b"],
        strEndsWith (lastName (e.1.drop (["b"] : FsPath).length)) markerSuffix = true →
        ["c"] ++ stripLast (e.1.drop (["b"] : FsPath).length) ≠ p) →
      (decompress_directory [(["b", "x.txt.compressed"], [0, 104]), (["b", "skip.txt"], [5]),
          (["b", "sub", "y.txt.compressed"], [0])] ["b"] ["c"] "gzip").fs.read p = none) ∧
     (decompress_directory [(["b", "x.txt.compressed"], [0, 104]), (["b", "skip.txt"], [5]),
        (["b", "sub", "y.txt.compressed"], [0])] ["b"] ["c"] "gzip").logs =
      (decompressJobs [(["b", "x.txt.compressed"], [0, 104]), (["b", "skip.txt"], [5]),
          (["b", "sub", "y.txt.compressed"], [0])] ["b"] ["c"]).map
        (fun j => LogRec.fileLog Mode.decompress j.1 j.2 "gzip")
        ++ [LogRec.dirLog Mode.decompress ["b"] ["c"] "gzip"]) :=
  ⟨by simp [get_decompression_function, CompressionAlgorithm.GZIP], by decide, by decide,
   by decide,
   spec_C3_decompress_tree [(["b", "x.txt.compressed"], [0, 104]), (["b", "skip.txt"], [5]),
       (["b", "sub", "y.txt.compressed"], [0])] ["b"] ["c"] "gzip" (modelDecode 0)
     (by simp [get_decompression_function, CompressionAlgorithm.GZIP]) (by decide) (by decide)
     (by decide)⟩

/-- C9: during a directory walk, a failure on one file propagates
immediately out of the walk: stated for the decompress walker, whose decode
step can fail, when the eligible job list splits into fully-successful jobs,
one failing job, and a remainder, the walk ends with the failing job's
error, the files after it are never processed (their targets stay absent),
and the per-tree summary log record is never emitted. -/
theorem spec_C9_abort_on_failure (fs : FS) (inR outR : FsPath) (alg : String)
    (dec : Bytes → Except Unit Bytes)
    (good : List (FsPath × FsPath)) (bad : FsPath × FsPath)
    (rest : List (FsPath × FsPath))
    (hdec : get_decompression_function alg = Except.ok dec)
    (hkeys : FS.keysNodup fs)
    (hdisj : ∀ e ∈ fs, pathUnder outR e.1 = false)
    (hsplit : decompressJobs fs inR outR = good ++ bad :: rest)
    (hgood : ∀ j ∈ good, ∃ d d2, fs.read j.1 = some d ∧ dec d = Except.ok d2)
    (hbad : ∃ db, fs.read bad.1 = some db ∧ dec db = Except.error ()) :
    (decompress_directory fs inR outR alg).err = some Err.codecFailure ∧
    (decompress_directory fs inR outR alg).logs =
      good.map (fun j => LogRec.fileLog Mode.decompress j.1 j.2 alg) ∧
    LogRec.dirLog Mode.decompress inR outR alg ∉ (decompress_directory fs inR outR alg).logs ∧
    (∀ j ∈ rest, (∀ a ∈ good, a.2 ≠ j.2) →
      (decompress_directory fs inR outR alg).fs.read j.2 = none) := by
  have hside := decompressJobs_side fs inR outR hkeys hdisj
  rw [hsplit] at hside
  have hstep : ∀ (fs2 : FS), ∀ j ∈ good, ∀ d : Bytes,
      fs2.read j.1 = some d → fs.read j.1 = some d →
      decompress_file fs2 j.1 j.2 alg =
        { fs := fs2.write j.2 ((fun (_ : FsPath × FsPath) (d : Bytes) =>
            (dec d).toOption.getD []) j d),
          logs := [LogRec.fileLog Mode.decompress j.1 j.2 alg], err := none } := by
    intro fs2 j hj d hr2 hr1
    obtain ⟨d', d2, hrd', hd2⟩ := hgood j hj
    have hd_eq : d = d' := by
      rw [hr1] at hrd'
      exact (Option.some.injEq _ _).mp hrd'
    have hdd : dec d = Except.ok d2 := by rw [hd_eq]; exact hd2
    rw [decompress_file_ok fs2 j.1 j.2 alg dec d d2 hdec hr2 hdd]
    simp [hdd, Except.toOption]
  have hbadstep : ∀ fs2 : FS, fs2.read bad.1 = fs.read bad.1 →
      decompress_file fs2 bad.1 bad.2 alg =
        { fs := fs2, logs := [], err := some Err.codecFailure } := by
    intro fs2 h2
    obtain ⟨db, hrb, hdb⟩ := hbad
    exact decompress_file_error fs2 bad.1 bad.2 alg dec db () hdec (h2.trans hrb) hdb
  have hA := walkJobs_abort (fun s j => decompress_file s j.1 j.2 alg)
      (fun (_ : FsPath × FsPath) (d : Bytes) => (dec d).toOption.getD [])
      (fun j => LogRec.fileLog Mode.decompress j.1 j.2 alg)
      outR Err.codecFailure bad rest good fs hkeys
      (fun j hj => ⟨(hside j hj).1, (hside j hj).2.1⟩)
      (fun j hj => (hside j (List.mem_append_left _ hj)).2.2)
      hstep
      hbadstep
  obtain ⟨e1, e2, e3⟩ := hA
  have hdd2 : decompress_directory fs inR outR alg =
      walkJobs (fun s j => decompress_file s j.1 j.2 alg) fs (good ++ bad :: rest) := by
    simp only [decompress_directory]
    rw [hsplit, e1]
  refine ⟨?_, ?_, ?_, ?_⟩
  · rw [hdd2]; exact e1
  · rw [hdd2]; exact e2
  · rw [hdd2, e2]
    intro hmem
    obtain ⟨j, hj, hc⟩ := List.mem_map.mp hmem
    exact LogRec.noConfusion hc
  · intro j hj hne
    have hj2 : pathUnder outR j.2 = true :=
      (hside j (List.mem_append_right _ (List.mem_cons_of_mem bad hj))).2.1
    rw [hdd2, e3 j.2 hj2 hne]
    apply FS.read_eq_none_of_no_key
    intro x hx hc
    exact (ne_of_pathUnder_true_false outR j.2 x.1 hj2 (hdisj x hx)) hc.symm

theorem spec_C9_abort_on_failure_witness :
    get_decompression_function "gzip" = Except.ok (modelDecode 0) ∧
    FS.keysNodup [(["b", "a.compressed"], [0, 7]), (["b", "bad.compressed"], [9]),
      (["b", "z.compressed"], [0])] ∧
    (∀ e ∈ ([(["b", "a.compressed"], [0, 7]), (["b", "bad.compressed"], [9]),
        (["b", "z.compressed"], [0])] : FS), pathUnder ["c"] e.1 = false) ∧
    decompressJobs [(["b", "a.compressed"], [0, 7]), (["b", "bad.compressed"], [9]),
        (["b", "z.compressed"], [0])] ["b"] ["c"] =
      [(["b", "a.compressed"], ["c", "a"])] ++
        (["b", "bad.compressed"], ["c", "bad"]) :: [(["b", "z.compressed"], ["c", "z"])] ∧
    ((decompress_directory [(["b", "a.compressed"], [0, 7]), (["b", "bad.compressed"], [9]),
        (["b", "z.compressed"], [0])] ["b"] ["c"] "gzip").err = some Err.codecFailure ∧
     (decompress_directory [(["b", "a.compressed"], [0, 7]), (["b", "bad.compressed"], [9]),
        (["b", "z.compressed"], [0])] ["b"] ["c"] "gzip").logs =
      [(["b", "a.compressed"], ["c", "a"])].map
        (fun j => LogRec.fileLog Mode.decompress j.1 j.2 "gzip") ∧
     LogRec.dirLog Mode.decompress ["b"] ["c"] "gzip" ∉
      (decompress_directory [(["b", "a.compressed"], [0, 7]), (["b", "bad.compressed"], [9]),
        (["b", "z.compressed"], [0])] ["b"] ["c"] "gzip").logs ∧
     (∀ j ∈ [((["b", "z.compressed"] : FsPath), (["c", "z"] : FsPath))],
      (∀ a ∈ [((["b", "a.compressed"] : FsPath), (["c", "a"] : FsPath))], a.2 ≠ j.2) →
      (decompress_directory [(["b", "a.compressed"], [0, 7]), (["b", "bad.compressed"], [9]),
        (["b", "z.compressed"], [0])] ["b"] ["c"] "gzip").fs.read j.2 = none)) :=
  ⟨by simp [get_decompression_function, CompressionAlgorithm.GZIP], by decide, by decide,
   by decide,
   spec_C9_abort_on_failure [(["b", "a.compressed"], [0, 7]), (["b", "bad.compressed"], [9]),
       (["b", "z.compressed"], [0])] ["b"] ["c"] "gzip" (modelDecode 0)
     [(["b", "a.compressed"], ["c", "a"])] (["b", "bad.compressed"], ["c", "bad"])
     [(["b", "z.compressed"], ["c", "z"])]
     (by simp [get_decompression_function, CompressionAlgorithm.GZIP]) (by decide) (by decide)
     (by decide)
     (by
      intro j hj
      rw [List.mem_singleton] at hj
      subst hj
      exact ⟨[0, 7], [7], by decide, rfl⟩)
     ⟨[9], by decide, rfl⟩⟩
